import Mathlib

/-!
Shallow embedding of the pool scheduler in `vm_manager.py` (class
`VMPoolManager` and its data types), together with proofs about the
specification's claims.  Remote collaborators (the hypervisor's
clone/status calls, the display gateway's connection creation) are
modelled by explicit outcome parameters threaded through the operations;
IP addresses are modelled by their 32-bit integer value (the source
stores dotted-quad strings, but no scheduler operation inspects the
string structure); timestamps from `time.time()` are modelled by
abstract `Nat` clock values supplied by the caller.
-/

namespace VMManager

/-- String constant used by the remote status checks (`'running'`). -/
def runningStr : String := "running"

/-- String constant used in concrete scenarios for a non-running remote state. -/
def stoppedStr : String := "stopped"

/-- Connection-id string handed back by the display gateway in the
all-success scenarios. -/
def connStr : String := "conn-1"

/-- The `VMStatus` enum of the source. -/
inductive VMStatus where
  | creating
  | running
  | stopped
  | error
deriving DecidableEq

/-- The `VMInfo` dataclass of the source.  `user_count` is an `Int`, not a
`Nat`, so that the lower bound of the occupancy claims is a real proof
obligation and not a typing artifact. -/
structure VMInfo where
  id : Nat
  name : String
  ip : Nat
  status : VMStatus
  guacamole_connection_id : Option String := none
  created_at : Nat := 0
  user_count : Int := 0
  last_health_check : Option Nat := none
deriving DecidableEq

/-- The configuration fields consulted by the scheduler (`config['vm']`). -/
structure Config where
  base_load : Nat
  users_per_vm : Int
  max_vms : Nat
deriving DecidableEq

/-- The `self.vm_pool` dict, modelled as an insertion-ordered association
list with (invariantly) unique keys, exactly as a Python `dict` behaves. -/
abbrev Dict := List (Nat × VMInfo)

/-- Python `d[k]` / `d.get(k)`: first binding of `k`. -/
def dictGet : Dict → Nat → Option VMInfo
  | [], _ => none
  | (k, v) :: rest, key => if key = k then some v else dictGet rest key

/-- Python `d[k] = v`: replace the binding in place if the key is present,
otherwise append it (dict insertion order). -/
def dictInsert : Dict → Nat → VMInfo → Dict
  | [], key, val => [(key, val)]
  | (k, v) :: rest, key, val =>
    if key = k then (key, val) :: rest else (k, v) :: dictInsert rest key val

/-- Python `del d[k]`: drop the (unique) binding of `k`. -/
def dictErase : Dict → Nat → Dict
  | [], _ => []
  | (k, v) :: rest, key => if key = k then rest else (k, v) :: dictErase rest key

/-- The keys of the dict, in insertion order (`list(d.items())` projected). -/
def dictKeys (d : Dict) : List Nat := d.map Prod.fst

/-- Python `s.add(x)` on `self.available_vms`.  The `set` is modelled as a
duplicate-free list whose order stands for the set's (unspecified)
iteration order; CPython guarantees no particular iteration order for a
set of ints. -/
def setAdd (s : List Nat) (x : Nat) : List Nat := if x ∈ s then s else s ++ [x]

/-- Python `s.discard(x)`: remove `x` if present, no error if absent. -/
def setDiscard (s : List Nat) (x : Nat) : List Nat := s.filter (fun y => y ≠ x)

/-- The mutable state of `VMPoolManager`: the record store `vm_pool`, the
`available_vms` set, the `next_vm_id` counter (initially 100) and the IP
allocator's free list `ip_pool`. -/
structure PoolState where
  vm_pool : Dict
  available_vms : List Nat
  next_vm_id : Nat
  ip_pool : List Nat
deriving DecidableEq

/-- The walk of `_initialize_ip_pool`: starting at `cur`, append the
candidate while it stays inside the subnet `[lo, hi]` (integer bounds of
the configured network), advancing by one, for at most `n = max_vms`
iterations; leaving the subnet breaks the loop. -/
def ipWalk (lo hi : Nat) (cur : Nat) : Nat → List Nat
  | 0 => []
  | n + 1 => if lo ≤ cur ∧ cur ≤ hi then cur :: ipWalk lo hi (cur + 1) n else []

/-- `get_next_ip`: pop the first free address (`self.ip_pool.pop(0)`),
returning `none` when the free list is empty. -/
def get_next_ip (s : PoolState) : Option Nat × PoolState :=
  match s.ip_pool with
  | [] => (none, s)
  | ip :: rest => (some ip, { s with ip_pool := rest })

/-- `release_ip`: append the address to the free list unless it is already
present (`if ip not in self.ip_pool`). -/
def release_ip (pool : List Nat) (ip : Nat) : List Nat :=
  if ip ∈ pool then pool else pool ++ [ip]

/-- Python truthiness of the `Optional[str]` connection id as tested by
`if connection_id:` in `create_vm` (`None` and the empty string are falsy). -/
def truthy : Option String → Bool
  | none => false
  | some s => s.length != 0

/-- Outcome of the remote collaborator calls made by one `create_vm` run:
the clock value stamped into `created_at`, whether `clone_vm` returned
success, whether `_wait_for_vm_ready` returned before its timeout, and the
connection id handed back by the display gateway (or `none` on failure). -/
structure CreateOutcome where
  now : Nat
  cloneOk : Bool
  readyOk : Bool
  connId : Option String
deriving DecidableEq

/-- The `except` handler of `create_vm`: the partially-built record is
dropped from the store (its in-place `ERROR` marking is unobservable once
deleted) and the reserved address is released back to the free list. -/
def createCleanup (vm_id : Nat) (ip : Nat) (s : PoolState) : Option VMInfo × PoolState :=
  (none, { s with ip_pool := release_ip s.ip_pool ip,
                  vm_pool := dictErase s.vm_pool vm_id })

/-- The record `create_vm` inserts before any remote call (`CREATING`). -/
def newRecord (o : CreateOutcome) (vm_id ip : Nat) : VMInfo :=
  { id := vm_id, name := String.append "dynamic-vm-" (toString vm_id), ip := ip,
    status := VMStatus.creating, created_at := o.now, user_count := 0 }

/-- The record as it stands after full provisioning success (`RUNNING`,
connection id stored). -/
def newRunning (o : CreateOutcome) (vm_id ip : Nat) : VMInfo :=
  { newRecord o vm_id ip with guacamole_connection_id := o.connId,
                              status := VMStatus.running }

/-- `create_vm`: refuse when the store is at `max_vms`; otherwise reserve
the next id (the counter is bumped before the IP is drawn), draw an
address (failing with `none` when exhausted), insert the record in state
`CREATING`, then run clone / wait-for-ready / connection creation, any
failure of which triggers `createCleanup`; on success the record becomes
`RUNNING`, stores the connection id and joins the available set. -/
def create_vm (cfg : Config) (o : CreateOutcome) (s : PoolState) : Option VMInfo × PoolState :=
  if cfg.max_vms ≤ s.vm_pool.length then (none, s)
  else
    let vm_id := s.next_vm_id
    let s1 := { s with next_vm_id := s.next_vm_id + 1 }
    match get_next_ip s1 with
    | (none, s2) => (none, s2)
    | (some ip, s2) =>
      let s3 := { s2 with vm_pool := dictInsert s2.vm_pool vm_id (newRecord o vm_id ip) }
      if o.cloneOk = false then createCleanup vm_id ip s3
      else if o.readyOk = false then createCleanup vm_id ip s3
      else if truthy o.connId then
        let s4 := { s3 with vm_pool := dictInsert s3.vm_pool vm_id (newRunning o vm_id ip),
                            available_vms := setAdd s3.available_vms vm_id }
        (some (newRunning o vm_id ip), s4)
      else createCleanup vm_id ip s3

/-- The scan of `assign_vm_to_user`: walk the available set in its
iteration order, keeping the first record seen whose status is `RUNNING`
and whose `user_count` is strictly below both the best-so-far count
(`min_users`, initially infinite, hence the `none` accumulator) and the
per-VM capacity.  An id missing from the store would raise `KeyError` in
the source; it is skipped here and shown unreachable under the store
invariants. -/
def scanKeep (cfg : Config) (vi : VMInfo) : Option VMInfo → Bool
  | none =>
    decide (vi.status = VMStatus.running) && decide (vi.user_count < cfg.users_per_vm)
  | some b =>
    decide (vi.status = VMStatus.running) && decide (vi.user_count < b.user_count) &&
      decide (vi.user_count < cfg.users_per_vm)

/-- One scan step: keep the candidate when it is `RUNNING`, strictly below
the best-so-far count (`min_users`, infinite while the accumulator is
`none`) and strictly below capacity. -/
def scanBest (cfg : Config) (pool : Dict) : List Nat → Option VMInfo → Option VMInfo
  | [], best => best
  | v :: rest, best =>
    match dictGet pool v with
    | none => scanBest cfg pool rest best
    | some vi =>
      if scanKeep cfg vi best then scanBest cfg pool rest (some vi)
      else scanBest cfg pool rest best

/-- The tail of `assign_vm_to_user` after a VM has been selected (or
freshly created): bump its `user_count`, write it back to the store, and
discard it from the available set when the new count reaches capacity
(`>=` in the source). -/
def assignBump (cfg : Config) (best : VMInfo) (s : PoolState) : Option VMInfo × PoolState :=
  let best2 := { best with user_count := best.user_count + 1 }
  let s1 := { s with vm_pool := dictInsert s.vm_pool best2.id best2 }
  let s2 := if cfg.users_per_vm ≤ best2.user_count
            then { s1 with available_vms := setDiscard s1.available_vms best2.id }
            else s1
  (some best2, s2)

/-- `assign_vm_to_user`: scan the available set; on a hit, bump that VM;
otherwise fall back to `create_vm` and bump its result, propagating
`none` when provisioning fails. -/
def assign_vm_to_user (cfg : Config) (o : CreateOutcome) (s : PoolState) :
    Option VMInfo × PoolState :=
  match scanBest cfg s.vm_pool s.available_vms none with
  | some best => assignBump cfg best s
  | none =>
    match create_vm cfg o s with
    | (none, s1) => (none, s1)
    | (some best, s1) => assignBump cfg best s1

/-- `release_vm_from_user`: no-op for an unknown id or a zero count;
otherwise decrement the count and re-add the id to the available set
whenever the new count is below capacity (the source checks only the
count, not the lifecycle state). -/
def release_vm_from_user (cfg : Config) (vm_id : Nat) (s : PoolState) : PoolState :=
  match dictGet s.vm_pool vm_id with
  | none => s
  | some vi =>
    if 0 < vi.user_count then
      let vi2 := { vi with user_count := vi.user_count - 1 }
      let s1 := { s with vm_pool := dictInsert s.vm_pool vm_id vi2 }
      if vi2.user_count < cfg.users_per_vm
      then { s1 with available_vms := setAdd s1.available_vms vm_id }
      else s1
    else s

/-- One step of `_check_vm_health`'s loop over `list(self.vm_pool.items())`:
query the remote status of the instance (`statusOf`, where `none` models a
failed `get_vm_status`, which the source folds into "not running" since
`{}.get('status') != 'running'`); a non-running report stops the record and
discards it from the available set, a running report marks it `RUNNING` and
stamps `last_health_check`. -/
def check_vm_health_aux (statusOf : Nat → Option String) (now : Nat) :
    List Nat → PoolState → PoolState
  | [], s => s
  | vm_id :: rest, s =>
    let s1 :=
      match dictGet s.vm_pool vm_id with
      | none => s
      | some vi =>
        if statusOf vm_id = some runningStr then
          let vi2 := { vi with status := VMStatus.running, last_health_check := some now }
          { s with vm_pool := dictInsert s.vm_pool vm_id vi2 }
        else
          let vi2 := { vi with status := VMStatus.stopped }
          { s with vm_pool := dictInsert s.vm_pool vm_id vi2,
                   available_vms := setDiscard s.available_vms vm_id }
    check_vm_health_aux statusOf now rest s1

/-- `_check_vm_health`: one health pass over a snapshot of the store's ids. -/
def check_vm_health (statusOf : Nat → Option String) (now : Nat) (s : PoolState) : PoolState :=
  check_vm_health_aux statusOf now (dictKeys s.vm_pool) s

/-- The fallback address string `f"192.168.1.{vm_id}"` of
`_register_existing_vm`, rendered into the numeric address model. -/
def fallback_ip (vm_id : Nat) : Nat := 192 * 16777216 + 168 * 65536 + 256 + vm_id

/-- `_register_existing_vm`: re-query the remote status; when it reports
running, insert a fresh `RUNNING` record with zero occupancy and add the id
to the available set.  No capacity check is performed. -/
def register_existing_vm (vm_id : Nat) (statusOf : Nat → Option String) (now : Nat)
    (s : PoolState) : PoolState :=
  if statusOf vm_id = some runningStr then
    let vm_info : VMInfo :=
      { id := vm_id, name := String.append "existing-vm-" (toString vm_id),
        ip := fallback_ip vm_id, status := VMStatus.running, created_at := now,
        user_count := 0 }
    { s with vm_pool := dictInsert s.vm_pool vm_id vm_info,
             available_vms := setAdd s.available_vms vm_id }
  else s

/-- The `for i in range(len(self.vm_pool), base_load)` loop of
`ensure_base_load`: the iteration count is fixed up front; the `i`-th
iteration runs `create_vm` with the `i`-th collaborator outcome. -/
def create_vm_loop (cfg : Config) (outs : Nat → CreateOutcome) :
    Nat → Nat → PoolState → PoolState
  | _, 0, s => s
  | i, n + 1, s => create_vm_loop cfg outs (i + 1) n (create_vm cfg (outs i) s).2

/-- `ensure_base_load`: list the remote VMs (`current_vms` = pairs of id and
reported state), register every running one except the template, then run
`create_vm` once for each missing base-load slot. -/
def ensure_base_load (cfg : Config) (current_vms : List (Nat × String)) (template_id : Nat)
    (statusOf : Nat → Option String) (now : Nat) (outs : Nat → CreateOutcome)
    (s : PoolState) : PoolState :=
  let running := (current_vms.filter (fun p => p.2 == runningStr)).map Prod.fst
  let s1 := running.foldl
    (fun st vid => if vid ≠ template_id then register_existing_vm vid statusOf now st else st) s
  create_vm_loop cfg outs 0 (cfg.base_load - s1.vm_pool.length) s1

/-- The scheduler operations that mutate the pool after startup: a user
assignment, a user release, one health pass, and one provisioning run. -/
inductive PoolOp where
  | assign (o : CreateOutcome)
  | release (vm_id : Nat)
  | health (statusOf : Nat → Option String) (now : Nat)
  | create (o : CreateOutcome)

/-- Whether an operation is one of the two user-facing calls. -/
def PoolOp.isUserOp : PoolOp → Prop
  | .assign _ => True
  | .release _ => True
  | _ => False

/-- Apply one operation to the pool state (return values discarded). -/
def applyOp (cfg : Config) : PoolOp → PoolState → PoolState
  | .assign o, s => (assign_vm_to_user cfg o s).2
  | .release vm_id, s => release_vm_from_user cfg vm_id s
  | .health statusOf now, s => check_vm_health statusOf now s
  | .create o, s => (create_vm cfg o s).2

/-- Apply a finite sequence of operations in order. -/
def applyOps (cfg : Config) (ops : List PoolOp) (s : PoolState) : PoolState :=
  ops.foldl (fun st op => applyOp cfg op st) s

/-- Occupancy bounds for every record of a store. -/
def PoolOcc (cfg : Config) (d : Dict) : Prop :=
  ∀ p ∈ d, 0 ≤ (p.2).user_count ∧ (p.2).user_count ≤ cfg.users_per_vm

/-- Occupancy invariant of the spec: every record's `user_count` lies in
`[0, users_per_vm]`. -/
def OccInv (cfg : Config) (s : PoolState) : Prop := PoolOcc cfg s.vm_pool

/-- Every record is stored under its own `id` field. -/
def PoolKey (d : Dict) : Prop := ∀ p ∈ d, (p.2).id = p.1

/-- Store key invariant of the scheduler. -/
def KeyInv (s : PoolState) : Prop := PoolKey s.vm_pool

/-- Freshness of the id counter: it strictly dominates every stored and
every available id, so a reserved id never collides. -/
def FreshInv (s : PoolState) : Prop :=
  (∀ k ∈ dictKeys s.vm_pool, k < s.next_vm_id) ∧ ∀ k ∈ s.available_vms, k < s.next_vm_id

/-- The part of the availability invariant the code actually maintains:
every available id denotes a stored record whose occupancy is strictly
below capacity (the lifecycle state is *not* constrained). -/
def AvailInv (cfg : Config) (s : PoolState) : Prop :=
  ∀ k ∈ s.available_vms, ∃ vi, dictGet s.vm_pool k = some vi ∧ vi.user_count < cfg.users_per_vm

/-- Well-formedness bundle preserved by every post-startup operation. -/
def WfInv (cfg : Config) (s : PoolState) : Prop :=
  KeyInv s ∧ FreshInv s ∧ AvailInv cfg s

/-- A fully successful collaborator outcome used by concrete scenarios. -/
def okOut : CreateOutcome := { now := 1, cloneOk := true, readyOk := true, connId := some connStr }

/-- A collaborator outcome whose remote clone call fails. -/
def failOut : CreateOutcome := { now := 2, cloneOk := false, readyOk := true, connId := some connStr }

/-- Configuration of the spec's sizing scenario: `max_vms=3`,
`users_per_vm=2`, `base_load=1`. -/
def cfg7 : Config := { base_load := 1, users_per_vm := 2, max_vms := 3 }

/-- Initial scheduler state for the sizing scenario: empty store, id
counter at 100, IP pool walked from `10.0.0.10` inside `10.0.0.0/24`
(numerically `167772170` inside `[167772160, 167772415]`). -/
def s70 : PoolState :=
  { vm_pool := [], available_vms := [], next_vm_id := 100,
    ip_pool := ipWalk 167772160 167772415 167772170 cfg7.max_vms }

/-- State after `ensure_base_load` with no pre-existing remote VMs and all
collaborator calls succeeding. -/
def s7base : PoolState :=
  ensure_base_load cfg7 [] 999 (fun _ => some runningStr) 0 (fun _ => okOut) s70

/-- State after five successful `assign_vm_to_user` calls. -/
def s75 : PoolState := applyOps cfg7 (List.replicate 5 (PoolOp.assign okOut)) s7base

/-- Result of the sixth `assign_vm_to_user` call. -/
def r76 : Option VMInfo × PoolState := assign_vm_to_user cfg7 okOut s75

/-- Result of the seventh `assign_vm_to_user` call. -/
def r77 : Option VMInfo × PoolState := assign_vm_to_user cfg7 okOut r76.2

/-- Single-user-per-VM configuration for the availability counterexample. -/
def cfg2c : Config := { base_load := 1, users_per_vm := 1, max_vms := 5 }

/-- Empty initial state with two free addresses for the availability
counterexample. -/
def s20 : PoolState := { vm_pool := [], available_vms := [], next_vm_id := 100, ip_pool := [10, 11] }

/-- Availability counterexample trace: provision one VM, fill it with one
user, observe it non-running in a health pass, then release the user.  The
release re-adds the id to the available set without checking the
lifecycle state. -/
def t2c : PoolState :=
  release_vm_from_user cfg2c 100
    (check_vm_health (fun _ => some stoppedStr) 5
      ((assign_vm_to_user cfg2c okOut ((create_vm cfg2c okOut s20).2)).2))

/-- Configuration with a one-record cap for the store-size counterexample. -/
def cfg3c : Config := { base_load := 0, users_per_vm := 1, max_vms := 1 }

/-- Store-size counterexample: startup registration of two pre-existing
running remote instances (ids 7 and 8, template 999) with `max_vms = 1`. -/
def e3c : PoolState :=
  ensure_base_load cfg3c [(7, runningStr), (8, runningStr)] 999
    (fun _ => some runningStr) 0 (fun _ => okOut)
    { vm_pool := [], available_vms := [], next_vm_id := 100, ip_pool := [] }

/-- State below the record cap but with an exhausted IP free list, for the
fail-fast counterexample. -/
def s5c : PoolState := { vm_pool := [], available_vms := [], next_vm_id := 100, ip_pool := [] }

/-- Two equally loaded running records for the tie-break counterexample. -/
def vmA : VMInfo := { id := 1, name := "a", ip := 1, status := VMStatus.running }

/-- Second record of the tie-break counterexample (higher id, equal count). -/
def vmB : VMInfo := { id := 2, name := "b", ip := 2, status := VMStatus.running }

/-- Tie-break counterexample state: both records eligible with equal
occupancy, and the available set's iteration order visits id 2 first. -/
def s6c : PoolState :=
  { vm_pool := [(1, vmA), (2, vmB)], available_vms := [2, 1], next_vm_id := 3, ip_pool := [] }

/-- A stopped record that the health-pass counterexample revives. -/
def vmC : VMInfo := { id := 1, name := "c", ip := 1, status := VMStatus.stopped }

/-- A running record that the health-pass counterexample stops. -/
def vmD : VMInfo :=
  { id := 2, name := "d", ip := 2, status := VMStatus.running, user_count := 1 }

/-- Health-pass counterexample state. -/
def s8c : PoolState :=
  { vm_pool := [(1, vmC), (2, vmD)], available_vms := [2], next_vm_id := 3, ip_pool := [] }

/-- Remote reports for the health-pass counterexample: instance 1 is
running again, instance 2 is no longer running. -/
def f8c : Nat → Option String := fun n => if n = 1 then some runningStr else some stoppedStr

/-- Health-pass counterexample result state. -/
def h8c : PoolState := check_vm_health f8c 9 s8c

/-- IP allocator counterexample: the free list after address 10 has been
released back while 11 and 12 are still free. -/
def p9c : List Nat := release_ip [11, 12] 10

/-- A state carrying the counterexample free list. -/
def s9c : PoolState := { vm_pool := [], available_vms := [], next_vm_id := 0, ip_pool := p9c }


/-! Basic lemmas about the dict and set models. -/

theorem dictGet_mem : ∀ {d : Dict} {key : Nat} {v : VMInfo},
    dictGet d key = some v → (key, v) ∈ d := by
  intro d
  induction d with
  | nil => intro key v h; simp [dictGet] at h
  | cons p rest ih =>
    intro key v h
    obtain ⟨k, w⟩ := p
    simp only [dictGet] at h
    split at h
    · next heq => cases h; subst heq; exact List.mem_cons_self _ _
    · exact List.mem_cons_of_mem _ (ih h)

theorem mem_keys_of_get {d : Dict} {key : Nat} {v : VMInfo} (h : dictGet d key = some v) :
    key ∈ dictKeys d :=
  List.mem_map_of_mem Prod.fst (dictGet_mem h)

theorem get_of_mem_keys : ∀ {d : Dict} {key : Nat},
    key ∈ dictKeys d → ∃ v, dictGet d key = some v := by
  intro d
  induction d with
  | nil => intro key h; simp [dictKeys] at h
  | cons p rest ih =>
    intro key h
    obtain ⟨k, w⟩ := p
    by_cases hk : key = k
    · exact ⟨w, by simp [dictGet, hk]⟩
    · have : key ∈ dictKeys rest := by
        simp [dictKeys] at h ⊢
        rcases h with h | h
        · exact absurd h hk
        · exact h
      obtain ⟨v, hv⟩ := ih this
      exact ⟨v, by simp [dictGet, hk, hv]⟩

theorem dictGet_insert_self : ∀ (d : Dict) (key : Nat) (v : VMInfo),
    dictGet (dictInsert d key v) key = some v := by
  intro d
  induction d with
  | nil => intro key v; simp [dictInsert, dictGet]
  | cons p rest ih =>
    intro key v
    obtain ⟨k, w⟩ := p
    by_cases hk : key = k
    · simp [dictInsert, hk, dictGet]
    · simp [dictInsert, hk, dictGet, ih]

theorem dictGet_insert_ne : ∀ (d : Dict) {key k' : Nat} (v : VMInfo), k' ≠ key →
    dictGet (dictInsert d key v) k' = dictGet d k' := by
  intro d
  induction d with
  | nil => intro key k' v h; simp [dictInsert, dictGet, h]
  | cons p rest ih =>
    intro key k' v h
    obtain ⟨k, w⟩ := p
    by_cases hk : key = k
    · subst hk; simp [dictInsert, dictGet, h]
    · by_cases hk' : k' = k
      · simp [dictInsert, hk, dictGet, hk']
      · simp [dictInsert, hk, dictGet, hk', ih v h]

theorem mem_dictInsert : ∀ {d : Dict} {key : Nat} {v : VMInfo} {p : Nat × VMInfo},
    p ∈ dictInsert d key v → p = (key, v) ∨ p ∈ d := by
  intro d
  induction d with
  | nil => intro key v p h; simp [dictInsert] at h; exact Or.inl h
  | cons q rest ih =>
    intro key v p h
    obtain ⟨k, w⟩ := q
    by_cases hk : key = k
    · simp [dictInsert, hk] at h
      rcases h with h | h
      · exact Or.inl (by simp [h, hk])
      · exact Or.inr (List.mem_cons_of_mem _ h)
    · simp only [dictInsert, if_neg hk, List.mem_cons] at h
      rcases h with h | h
      · exact Or.inr (by simp [h])
      · rcases ih h with h' | h'
        · exact Or.inl h'
        · exact Or.inr (List.mem_cons_of_mem _ h')

theorem mem_dictErase : ∀ {d : Dict} {key : Nat} {p : Nat × VMInfo},
    p ∈ dictErase d key → p ∈ d := by
  intro d
  induction d with
  | nil => intro key p h; simp [dictErase] at h
  | cons q rest ih =>
    intro key p h
    obtain ⟨k, w⟩ := q
    by_cases hk : key = k
    · simp only [dictErase, if_pos hk] at h
      exact List.mem_cons_of_mem _ h
    · simp only [dictErase, if_neg hk, List.mem_cons] at h
      rcases h with h | h
      · exact h ▸ List.mem_cons_self _ _
      · exact List.mem_cons_of_mem _ (ih h)

theorem dictGet_erase_ne : ∀ (d : Dict) {key k' : Nat}, k' ≠ key →
    dictGet (dictErase d key) k' = dictGet d k' := by
  intro d
  induction d with
  | nil => intro key k' h; simp [dictErase]
  | cons q rest ih =>
    intro key k' h
    obtain ⟨k, w⟩ := q
    by_cases hk : key = k
    · subst hk; simp [dictErase, dictGet, h]
    · by_cases hk' : k' = k
      · simp [dictErase, hk, dictGet, hk']
      · simp [dictErase, hk, dictGet, hk', ih h]

theorem dictErase_insert_fresh : ∀ {d : Dict} {key : Nat} (v : VMInfo),
    dictGet d key = none → dictErase (dictInsert d key v) key = d := by
  intro d
  induction d with
  | nil => intro key v _; simp [dictInsert, dictErase]
  | cons q rest ih =>
    intro key v h
    obtain ⟨k, w⟩ := q
    simp only [dictGet] at h
    split at h
    · exact absurd h (by simp)
    · next hk =>
      simp [dictInsert, hk, dictErase, ih v h]

theorem length_dictInsert_of_mem : ∀ {d : Dict} {key : Nat} (v : VMInfo),
    key ∈ dictKeys d → (dictInsert d key v).length = d.length := by
  intro d
  induction d with
  | nil => intro key v h; simp [dictKeys] at h
  | cons q rest ih =>
    intro key v h
    obtain ⟨k, w⟩ := q
    by_cases hk : key = k
    · simp [dictInsert, hk]
    · have : key ∈ dictKeys rest := by
        simp [dictKeys] at h ⊢
        rcases h with h | h
        · exact absurd h hk
        · exact h
      simp [dictInsert, hk, ih v this]

theorem length_dictInsert_le : ∀ (d : Dict) (key : Nat) (v : VMInfo),
    (dictInsert d key v).length ≤ d.length + 1 := by
  intro d
  induction d with
  | nil => intro key v; simp [dictInsert]
  | cons q rest ih =>
    intro key v
    obtain ⟨k, w⟩ := q
    by_cases hk : key = k
    · simp [dictInsert, hk]
    · simp only [dictInsert, if_neg hk, List.length_cons]
      have := ih key v
      omega

theorem length_dictErase_le : ∀ (d : Dict) (key : Nat),
    (dictErase d key).length ≤ d.length := by
  intro d
  induction d with
  | nil => intro key; simp [dictErase]
  | cons q rest ih =>
    intro key
    obtain ⟨k, w⟩ := q
    by_cases hk : key = k
    · simp [dictErase, hk]
    · simp only [dictErase, if_neg hk, List.length_cons]
      have := ih key
      omega

theorem mem_keys_insert : ∀ {d : Dict} {key k' : Nat} {v : VMInfo},
    k' ∈ dictKeys (dictInsert d key v) ↔ k' = key ∨ k' ∈ dictKeys d := by
  intro d
  induction d with
  | nil => intro key k' v; simp [dictInsert, dictKeys]
  | cons q rest ih =>
    intro key k' v
    obtain ⟨k, w⟩ := q
    by_cases hk : key = k
    · subst hk; simp [dictInsert, dictKeys]
    · simp only [dictInsert, if_neg hk, dictKeys, List.map_cons, List.mem_cons]
      rw [show (dictInsert rest key v).map Prod.fst = dictKeys (dictInsert rest key v) from rfl]
      rw [ih]
      simp [dictKeys]
      tauto

theorem mem_setAdd {l : List Nat} {x y : Nat} : x ∈ setAdd l y ↔ x = y ∨ x ∈ l := by
  unfold setAdd
  split
  · next h => constructor
              · exact fun hx => Or.inr hx
              · rintro (rfl | hx)
                · exact h
                · exact hx
  · simp [List.mem_append]; tauto

theorem mem_setDiscard {l : List Nat} {x y : Nat} : x ∈ setDiscard l y ↔ x ∈ l ∧ x ≠ y := by
  simp [setDiscard, List.mem_filter]


/-! Lemmas about the assignment scan. -/

theorem scanKeep_facts {cfg : Config} {vi : VMInfo} {b : Option VMInfo}
    (h : scanKeep cfg vi b = true) :
    vi.status = VMStatus.running ∧ vi.user_count < cfg.users_per_vm := by
  cases b <;> simp [scanKeep] at h <;> tauto

theorem scanKeep_lt {cfg : Config} {vi b0 : VMInfo}
    (h : scanKeep cfg vi (some b0) = true) : vi.user_count < b0.user_count := by
  simp [scanKeep] at h
  exact h.1.2

theorem scanKeep_none_false {cfg : Config} {vi : VMInfo}
    (h : scanKeep cfg vi none = false) :
    ¬(vi.status = VMStatus.running ∧ vi.user_count < cfg.users_per_vm) := by
  rintro ⟨hrun, hcap⟩
  simp [scanKeep, hrun, hcap] at h

theorem scanKeep_some_false {cfg : Config} {vi b0 : VMInfo}
    (h : scanKeep cfg vi (some b0) = false) (hrun : vi.status = VMStatus.running)
    (hcap : vi.user_count < cfg.users_per_vm) : b0.user_count ≤ vi.user_count := by
  simp [scanKeep, hrun, hcap] at h
  exact h

/-- Whatever `scanBest` returns is either the incoming accumulator or an
eligible record found at some id of the scanned list. -/
theorem scanBest_origin (cfg : Config) (pool : Dict) :
    ∀ (l : List Nat) (b : Option VMInfo) (vi : VMInfo),
      scanBest cfg pool l b = some vi →
      b = some vi ∨ ∃ v ∈ l, dictGet pool v = some vi ∧ vi.status = VMStatus.running ∧
        vi.user_count < cfg.users_per_vm := by
  intro l
  induction l with
  | nil => intro b vi h; exact Or.inl h
  | cons v rest ih =>
    intro b vi h
    simp only [scanBest] at h
    split at h
    · rcases ih b vi h with h' | ⟨u, hu, h2⟩
      · exact Or.inl h'
      · exact Or.inr ⟨u, List.mem_cons_of_mem _ hu, h2⟩
    · next vj heq =>
      split at h
      · next hkeep =>
        rcases ih (some vj) vi h with h' | ⟨u, hu, h2⟩
        · cases h'
          obtain ⟨hrun, hcap⟩ := scanKeep_facts hkeep
          exact Or.inr ⟨v, List.mem_cons_self _ _, heq, hrun, hcap⟩
        · exact Or.inr ⟨u, List.mem_cons_of_mem _ hu, h2⟩
      · rcases ih b vi h with h' | ⟨u, hu, h2⟩
        · exact Or.inl h'
        · exact Or.inr ⟨u, List.mem_cons_of_mem _ hu, h2⟩

/-- The record `scanBest` returns has minimal occupancy: it does not
exceed the accumulator's count nor the count of any eligible record in
the scanned list. -/
theorem scanBest_min (cfg : Config) (pool : Dict) :
    ∀ (l : List Nat) (b : Option VMInfo) (vi : VMInfo),
      scanBest cfg pool l b = some vi →
      (∀ b0, b = some b0 → vi.user_count ≤ b0.user_count) ∧
      ∀ v ∈ l, ∀ vj, dictGet pool v = some vj → vj.status = VMStatus.running →
        vj.user_count < cfg.users_per_vm → vi.user_count ≤ vj.user_count := by
  intro l
  induction l with
  | nil =>
    intro b vi h
    cases h
    exact ⟨fun b0 hb => by cases hb; exact le_refl _, by simp⟩
  | cons v rest ih =>
    intro b vi h
    simp only [scanBest] at h
    split at h
    · next heq =>
      obtain ⟨hacc, hrest⟩ := ih b vi h
      refine ⟨hacc, ?_⟩
      intro u hu vj hget hrun hcap
      rcases List.mem_cons.mp hu with rfl | hu
      · rw [hget] at heq; cases heq
      · exact hrest u hu vj hget hrun hcap
    · next vj heq =>
      split at h
      · next hkeep =>
        obtain ⟨hacc, hrest⟩ := ih (some vj) vi h
        refine ⟨?_, ?_⟩
        · intro b0 hb0
          cases b
          · cases hb0
          · cases hb0
            exact le_of_lt (lt_of_le_of_lt (hacc vj rfl) (scanKeep_lt hkeep))
        · intro u hu vk hget hrun hcap
          rcases List.mem_cons.mp hu with rfl | hu
          · rw [hget] at heq
            injection heq with h3
            rw [h3]
            exact hacc vj rfl
          · exact hrest u hu vk hget hrun hcap
      · next hkeep =>
        simp only [Bool.not_eq_true] at hkeep
        obtain ⟨hacc, hrest⟩ := ih b vi h
        refine ⟨hacc, ?_⟩
        intro u hu vk hget hrun hcap
        rcases List.mem_cons.mp hu with rfl | hu
        · rw [hget] at heq
          injection heq with h3
          rw [h3] at hrun hcap ⊢
          rcases b with _ | b0
          · exact absurd ⟨hrun, hcap⟩ (scanKeep_none_false hkeep)
          · have h1 : b0.user_count ≤ vj.user_count :=
              scanKeep_some_false hkeep hrun hcap
            have h2 : vi.user_count ≤ b0.user_count := hacc b0 rfl
            omega
        · exact hrest u hu vk hget hrun hcap


/-! Case analysis of one `create_vm` run. -/

/-- Full behavioural characterization of `create_vm`: pool-full refusal
with no side effects, IP exhaustion with the id counter already bumped,
provisioning failure with cleanup, or full success. -/
theorem create_vm_cases (cfg : Config) (o : CreateOutcome) (s : PoolState) :
    (cfg.max_vms ≤ s.vm_pool.length ∧ create_vm cfg o s = (none, s))
    ∨ (s.vm_pool.length < cfg.max_vms ∧ s.ip_pool = [] ∧
        create_vm cfg o s = (none, { s with next_vm_id := s.next_vm_id + 1 }))
    ∨ (∃ ip rest, s.vm_pool.length < cfg.max_vms ∧ s.ip_pool = ip :: rest ∧
        ((¬(o.cloneOk = true ∧ o.readyOk = true ∧ truthy o.connId = true) ∧
          create_vm cfg o s = (none,
            { s with next_vm_id := s.next_vm_id + 1,
                     ip_pool := release_ip rest ip,
                     vm_pool := dictErase
                       (dictInsert s.vm_pool s.next_vm_id (newRecord o s.next_vm_id ip))
                       s.next_vm_id }))
        ∨ (o.cloneOk = true ∧ o.readyOk = true ∧ truthy o.connId = true ∧
          create_vm cfg o s = (some (newRunning o s.next_vm_id ip),
            { s with next_vm_id := s.next_vm_id + 1,
                     ip_pool := rest,
                     vm_pool := dictInsert
                       (dictInsert s.vm_pool s.next_vm_id (newRecord o s.next_vm_id ip))
                       s.next_vm_id (newRunning o s.next_vm_id ip),
                     available_vms := setAdd s.available_vms s.next_vm_id })))) := by
  by_cases hlen : cfg.max_vms ≤ s.vm_pool.length
  · exact Or.inl ⟨hlen, by simp [create_vm, hlen]⟩
  · right
    rcases hip : s.ip_pool with _ | ⟨ip, rest⟩
    · refine Or.inl ⟨by omega, rfl, ?_⟩
      simp [create_vm, hlen, get_next_ip, hip]
    · refine Or.inr ⟨ip, rest, by omega, rfl, ?_⟩
      by_cases hc : o.cloneOk = true
      · by_cases hr : o.readyOk = true
        · by_cases ht : truthy o.connId = true
          · refine Or.inr ⟨hc, hr, ht, ?_⟩
            simp [create_vm, hlen, get_next_ip, hip, hc, hr, ht]
          · refine Or.inl ⟨by tauto, ?_⟩
            simp only [Bool.not_eq_true] at ht
            simp [create_vm, hlen, get_next_ip, hip, hc, hr, ht, createCleanup]
        · refine Or.inl ⟨by tauto, ?_⟩
          simp only [Bool.not_eq_true] at hr
          simp [create_vm, hlen, get_next_ip, hip, hc, hr, createCleanup]
      · refine Or.inl ⟨by tauto, ?_⟩
        simp only [Bool.not_eq_true] at hc
        simp [create_vm, hlen, get_next_ip, hip, hc, createCleanup]


/-! Shape lemmas for the post-selection bump and for release. -/

theorem assignBump_fst (cfg : Config) (best : VMInfo) (s : PoolState) :
    (assignBump cfg best s).1 = some ({ best with user_count := best.user_count + 1 }) := by
  by_cases hc : cfg.users_per_vm ≤ best.user_count + 1 <;> simp [assignBump, hc]

theorem assignBump_vm_pool (cfg : Config) (best : VMInfo) (s : PoolState) :
    ((assignBump cfg best s).2).vm_pool =
      dictInsert s.vm_pool best.id ({ best with user_count := best.user_count + 1 }) := by
  by_cases hc : cfg.users_per_vm ≤ best.user_count + 1 <;> simp [assignBump, hc]

theorem assignBump_avail (cfg : Config) (best : VMInfo) (s : PoolState) :
    ((assignBump cfg best s).2).available_vms =
      if cfg.users_per_vm ≤ best.user_count + 1 then setDiscard s.available_vms best.id
      else s.available_vms := by
  by_cases hc : cfg.users_per_vm ≤ best.user_count + 1 <;> simp [assignBump, hc]

theorem assignBump_next (cfg : Config) (best : VMInfo) (s : PoolState) :
    ((assignBump cfg best s).2).next_vm_id = s.next_vm_id := by
  by_cases hc : cfg.users_per_vm ≤ best.user_count + 1 <;> simp [assignBump, hc]

theorem assignBump_ip_pool (cfg : Config) (best : VMInfo) (s : PoolState) :
    ((assignBump cfg best s).2).ip_pool = s.ip_pool := by
  by_cases hc : cfg.users_per_vm ≤ best.user_count + 1 <;> simp [assignBump, hc]

theorem release_absent {cfg : Config} {vm_id : Nat} {s : PoolState}
    (hget : dictGet s.vm_pool vm_id = none) : release_vm_from_user cfg vm_id s = s := by
  simp [release_vm_from_user, hget]

theorem release_zero {cfg : Config} {vm_id : Nat} {s : PoolState} {vi : VMInfo}
    (hget : dictGet s.vm_pool vm_id = some vi) (hz : ¬0 < vi.user_count) :
    release_vm_from_user cfg vm_id s = s := by
  simp [release_vm_from_user, hget, hz]

theorem release_vm_pool {cfg : Config} {vm_id : Nat} {s : PoolState} {vi : VMInfo}
    (hget : dictGet s.vm_pool vm_id = some vi) (hpos : 0 < vi.user_count) :
    (release_vm_from_user cfg vm_id s).vm_pool =
      dictInsert s.vm_pool vm_id ({ vi with user_count := vi.user_count - 1 }) := by
  by_cases hlt : vi.user_count - 1 < cfg.users_per_vm <;>
    simp [release_vm_from_user, hget, hpos, hlt]

theorem release_avail {cfg : Config} {vm_id : Nat} {s : PoolState} {vi : VMInfo}
    (hget : dictGet s.vm_pool vm_id = some vi) (hpos : 0 < vi.user_count) :
    (release_vm_from_user cfg vm_id s).available_vms =
      if vi.user_count - 1 < cfg.users_per_vm then setAdd s.available_vms vm_id
      else s.available_vms := by
  by_cases hlt : vi.user_count - 1 < cfg.users_per_vm <;>
    simp [release_vm_from_user, hget, hpos, hlt]

theorem release_next_id (cfg : Config) (vm_id : Nat) (s : PoolState) :
    (release_vm_from_user cfg vm_id s).next_vm_id = s.next_vm_id := by
  rcases hget : dictGet s.vm_pool vm_id with _ | vi
  · simp [release_vm_from_user, hget]
  · by_cases hpos : 0 < vi.user_count
    · by_cases hlt : vi.user_count - 1 < cfg.users_per_vm <;>
        simp [release_vm_from_user, hget, hpos, hlt]
    · simp [release_vm_from_user, hget, hpos]

/-- Facts about a successful `create_vm` run, extracted from the case
analysis: the returned record has zero occupancy, carries the reserved id,
and is stored under that id in the result state. -/
theorem create_some_facts {cfg : Config} {o : CreateOutcome} {s : PoolState}
    {vi : VMInfo} {s1 : PoolState} (h : create_vm cfg o s = (some vi, s1)) :
    vi.user_count = 0 ∧ vi.id = s.next_vm_id ∧ dictGet s1.vm_pool vi.id = some vi ∧
      s1.next_vm_id = s.next_vm_id + 1 := by
  rcases create_vm_cases cfg o s with ⟨_, heq⟩ | ⟨_, _, heq⟩ |
    ⟨ip, rest, _, _, ⟨_, heq⟩ | ⟨_, _, _, heq⟩⟩ <;> rw [heq] at h <;>
    injection h with h1 h2
  · cases h1
  · cases h1
  · cases h1
  · injection h1 with h1
    subst h1
    subst h2
    refine ⟨by simp [newRunning, newRecord], by simp [newRunning, newRecord], ?_, rfl⟩
    have hid : (newRunning o s.next_vm_id ip).id = s.next_vm_id := by
      simp [newRunning, newRecord]
    rw [hid]
    exact dictGet_insert_self _ _ _

/-! Preservation of the occupancy invariant. -/

theorem poolOcc_insert {cfg : Config} {d : Dict} {key : Nat} {v : VMInfo}
    (hd : PoolOcc cfg d) (hv : 0 ≤ v.user_count ∧ v.user_count ≤ cfg.users_per_vm) :
    PoolOcc cfg (dictInsert d key v) := by
  intro p hp
  rcases mem_dictInsert hp with rfl | hp'
  · exact hv
  · exact hd p hp'

theorem poolOcc_erase {cfg : Config} {d : Dict} {key : Nat}
    (hd : PoolOcc cfg d) : PoolOcc cfg (dictErase d key) :=
  fun p hp => hd p (mem_dictErase hp)

theorem occ_create {cfg : Config} {o : CreateOutcome} {s : PoolState}
    (hcap : 1 ≤ cfg.users_per_vm) (h : OccInv cfg s) : OccInv cfg (create_vm cfg o s).2 := by
  rcases create_vm_cases cfg o s with ⟨_, heq⟩ | ⟨_, _, heq⟩ |
    ⟨ip, rest, _, _, ⟨_, heq⟩ | ⟨_, _, _, heq⟩⟩ <;> rw [heq]
  · exact h
  · exact h
  · exact poolOcc_erase (poolOcc_insert h (by constructor <;> simp [newRecord] <;> omega))
  · exact poolOcc_insert (poolOcc_insert h (by constructor <;> simp [newRecord] <;> omega))
      (by constructor <;> simp [newRunning, newRecord] <;> omega)

theorem occ_bump {cfg : Config} {best : VMInfo} {s : PoolState}
    (h : OccInv cfg s) (h0 : 0 ≤ best.user_count) (h1 : best.user_count < cfg.users_per_vm) :
    OccInv cfg (assignBump cfg best s).2 := by
  unfold OccInv
  rw [assignBump_vm_pool]
  refine poolOcc_insert h ⟨?_, ?_⟩ <;> simp <;> omega

theorem occ_release {cfg : Config} {vm_id : Nat} {s : PoolState}
    (h : OccInv cfg s) : OccInv cfg (release_vm_from_user cfg vm_id s) := by
  rcases hget : dictGet s.vm_pool vm_id with _ | vi
  · rw [release_absent hget]; exact h
  · by_cases hpos : 0 < vi.user_count
    · have hvi : 0 ≤ vi.user_count ∧ vi.user_count ≤ cfg.users_per_vm := h _ (dictGet_mem hget)
      unfold OccInv
      rw [release_vm_pool hget hpos]
      refine poolOcc_insert h ⟨?_, ?_⟩ <;> simp <;> omega
    · rw [release_zero hget hpos]; exact h

theorem occ_health_aux {cfg : Config} (statusOf : Nat → Option String) (now : Nat) :
    ∀ (ids : List Nat) (s : PoolState), OccInv cfg s →
      OccInv cfg (check_vm_health_aux statusOf now ids s) := by
  intro ids
  induction ids with
  | nil => intro s h; exact h
  | cons vm_id rest ih =>
    intro s h
    simp only [check_vm_health_aux]
    apply ih
    split
    · exact h
    · next vi hget =>
      have hvi : 0 ≤ vi.user_count ∧ vi.user_count ≤ cfg.users_per_vm := h _ (dictGet_mem hget)
      split
      · refine poolOcc_insert h ⟨?_, ?_⟩ <;> simp <;> omega
      · refine poolOcc_insert h ⟨?_, ?_⟩ <;> simp <;> omega

theorem occ_health {cfg : Config} {statusOf : Nat → Option String} {now : Nat} {s : PoolState}
    (h : OccInv cfg s) : OccInv cfg (check_vm_health statusOf now s) :=
  occ_health_aux statusOf now _ s h

theorem occ_assign {cfg : Config} {o : CreateOutcome} {s : PoolState}
    (hcap : 1 ≤ cfg.users_per_vm) (h : OccInv cfg s) :
    OccInv cfg (assign_vm_to_user cfg o s).2 := by
  unfold assign_vm_to_user
  split
  · next best hscan =>
    rcases scanBest_origin cfg s.vm_pool _ _ _ hscan with h' | ⟨v, hv, hget, hrun, hlt⟩
    · cases h'
    · have hb : 0 ≤ best.user_count ∧ best.user_count ≤ cfg.users_per_vm :=
        h _ (dictGet_mem hget)
      exact occ_bump h hb.1 hlt
  · next hscan =>
    split
    · next s1 hc => exact hc ▸ occ_create hcap h
    · next best s1 hc =>
      obtain ⟨hcnt, hid, hgets, hnext⟩ := create_some_facts hc
      have hocc1 : OccInv cfg s1 := by
        have hx : OccInv cfg (create_vm cfg o s).2 := occ_create hcap h
        rw [hc] at hx
        exact hx
      exact occ_bump hocc1 (by omega) (by omega)

theorem occ_applyOp {cfg : Config} {op : PoolOp} {s : PoolState}
    (hcap : 1 ≤ cfg.users_per_vm) (h : OccInv cfg s) : OccInv cfg (applyOp cfg op s) := by
  cases op with
  | assign o => exact occ_assign hcap h
  | release vm_id => exact occ_release h
  | health statusOf now => exact occ_health h
  | create o => exact occ_create hcap h

theorem occ_applyOps {cfg : Config} {ops : List PoolOp} {s : PoolState}
    (hcap : 1 ≤ cfg.users_per_vm) (h : OccInv cfg s) : OccInv cfg (applyOps cfg ops s) := by
  induction ops generalizing s with
  | nil => exact h
  | cons op rest ih => exact ih (occ_applyOp hcap h)


/-! Preservation of the key, size and availability invariants. -/

theorem dictInsert_insert (d : Dict) (key : Nat) (a b : VMInfo) :
    dictInsert (dictInsert d key a) key b = dictInsert d key b := by
  induction d with
  | nil => simp [dictInsert]
  | cons q rest ih =>
    obtain ⟨k, w⟩ := q
    by_cases hk : key = k
    · simp [dictInsert, hk]
    · simp [dictInsert, hk, ih]

theorem fresh_get_none {s : PoolState} (hF : FreshInv s) :
    dictGet s.vm_pool s.next_vm_id = none := by
  rcases hget : dictGet s.vm_pool s.next_vm_id with _ | v
  · rfl
  · have := hF.1 _ (mem_keys_of_get hget)
    omega

theorem poolKey_insert {d : Dict} {key : Nat} {v : VMInfo}
    (hd : PoolKey d) (hv : v.id = key) : PoolKey (dictInsert d key v) := by
  intro p hp
  rcases mem_dictInsert hp with rfl | hp'
  · exact hv
  · exact hd p hp'

theorem poolKey_erase {d : Dict} {key : Nat} (hd : PoolKey d) : PoolKey (dictErase d key) :=
  fun p hp => hd p (mem_dictErase hp)

theorem wfInv_mk {cfg : Config} {s : PoolState} (hK : PoolKey s.vm_pool)
    (h1 : ∀ k ∈ dictKeys s.vm_pool, k < s.next_vm_id)
    (h2 : ∀ k ∈ s.available_vms, k < s.next_vm_id)
    (h3 : ∀ k ∈ s.available_vms,
      ∃ vi, dictGet s.vm_pool k = some vi ∧ vi.user_count < cfg.users_per_vm) :
    WfInv cfg s := ⟨hK, ⟨h1, h2⟩, h3⟩

theorem wf_create {cfg : Config} {o : CreateOutcome} {s : PoolState}
    (hcap : 1 ≤ cfg.users_per_vm) (h : WfInv cfg s) : WfInv cfg (create_vm cfg o s).2 := by
  obtain ⟨hK, hF, hA⟩ := h
  have hfresh : dictGet s.vm_pool s.next_vm_id = none := fresh_get_none hF
  rcases create_vm_cases cfg o s with ⟨_, heq⟩ | ⟨_, _, heq⟩ |
    ⟨ip, rest, _, _, ⟨_, heq⟩ | ⟨hc, hr, ht, heq⟩⟩ <;> rw [heq]
  · exact ⟨hK, hF, hA⟩
  · refine wfInv_mk hK ?_ ?_ ?_
    · intro k hk
      have := hF.1 k hk
      show k < s.next_vm_id + 1
      omega
    · intro k hk
      have := hF.2 k hk
      show k < s.next_vm_id + 1
      omega
    · exact hA
  · rw [dictErase_insert_fresh _ hfresh]
    refine wfInv_mk hK ?_ ?_ ?_
    · intro k hk
      have := hF.1 k hk
      show k < s.next_vm_id + 1
      omega
    · intro k hk
      have := hF.2 k hk
      show k < s.next_vm_id + 1
      omega
    · exact hA
  · rw [dictInsert_insert]
    refine wfInv_mk (poolKey_insert hK (by simp [newRunning, newRecord])) ?_ ?_ ?_
    · intro k hk
      show k < s.next_vm_id + 1
      rcases mem_keys_insert.mp hk with rfl | hk'
      · omega
      · have := hF.1 k hk'
        omega
    · intro k hk
      show k < s.next_vm_id + 1
      rcases mem_setAdd.mp hk with rfl | hk'
      · omega
      · have := hF.2 k hk'
        omega
    · intro k hk
      rcases mem_setAdd.mp hk with rfl | hk'
      · refine ⟨newRunning o s.next_vm_id ip, dictGet_insert_self _ _ _, ?_⟩
        simp [newRunning, newRecord]
        omega
      · have hne : k ≠ s.next_vm_id := by
          have := hF.2 k hk'
          omega
        obtain ⟨vi, hvi, hvc⟩ := hA k hk'
        exact ⟨vi, by rw [dictGet_insert_ne _ _ hne]; exact hvi, hvc⟩

theorem wf_bump {cfg : Config} {best : VMInfo} {s : PoolState}
    (h : WfInv cfg s) (hmem : best.id ∈ dictKeys s.vm_pool) :
    WfInv cfg (assignBump cfg best s).2 := by
  obtain ⟨hK, hF, hA⟩ := h
  refine wfInv_mk ?_ ?_ ?_ ?_
  · rw [assignBump_vm_pool]
    exact poolKey_insert hK rfl
  · intro k hk
    rw [assignBump_vm_pool] at hk
    rw [assignBump_next]
    rcases mem_keys_insert.mp hk with rfl | hk'
    · exact hF.1 _ hmem
    · exact hF.1 k hk'
  · intro k hk
    rw [assignBump_avail] at hk
    rw [assignBump_next]
    split at hk
    · exact hF.2 k (mem_setDiscard.mp hk).1
    · exact hF.2 k hk
  · intro k hk
    rw [assignBump_avail] at hk
    rw [assignBump_vm_pool]
    split at hk
    · next hcap2 =>
      obtain ⟨hk', hne⟩ := mem_setDiscard.mp hk
      obtain ⟨vi, hvi, hvc⟩ := hA k hk'
      exact ⟨vi, by rw [dictGet_insert_ne _ _ hne]; exact hvi, hvc⟩
    · next hcap2 =>
      by_cases hkb : k = best.id
      · subst hkb
        refine ⟨{ best with user_count := best.user_count + 1 }, dictGet_insert_self _ _ _, ?_⟩
        simp
        omega
      · obtain ⟨vi, hvi, hvc⟩ := hA k hk
        exact ⟨vi, by rw [dictGet_insert_ne _ _ hkb]; exact hvi, hvc⟩

theorem wf_release {cfg : Config} {vm_id : Nat} {s : PoolState}
    (h : WfInv cfg s) : WfInv cfg (release_vm_from_user cfg vm_id s) := by
  obtain ⟨hK, hF, hA⟩ := h
  rcases hget : dictGet s.vm_pool vm_id with _ | vi
  · rw [release_absent hget]; exact ⟨hK, hF, hA⟩
  · by_cases hpos : 0 < vi.user_count
    · have hidm : vm_id ∈ dictKeys s.vm_pool := mem_keys_of_get hget
      have hid : vi.id = vm_id := hK _ (dictGet_mem hget)
      refine wfInv_mk ?_ ?_ ?_ ?_
      · rw [release_vm_pool hget hpos]
        exact poolKey_insert hK (by simp [hid])
      · intro k hk
        rw [release_vm_pool hget hpos] at hk
        rw [release_next_id]
        rcases mem_keys_insert.mp hk with rfl | hk'
        · exact hF.1 _ hidm
        · exact hF.1 k hk'
      · intro k hk
        rw [release_avail hget hpos] at hk
        rw [release_next_id]
        split at hk
        · rcases mem_setAdd.mp hk with rfl | hk'
          · exact hF.1 _ hidm
          · exact hF.2 k hk'
        · exact hF.2 k hk
      · intro k hk
        rw [release_avail hget hpos] at hk
        rw [release_vm_pool hget hpos]
        by_cases hkv : k = vm_id
        · subst hkv
          refine ⟨{ vi with user_count := vi.user_count - 1 }, dictGet_insert_self _ _ _, ?_⟩
          split at hk
          · next hlt => simpa using hlt
          · next hlt =>
            obtain ⟨wi, hwi, hwc⟩ := hA _ hk
            rw [hget] at hwi
            injection hwi with hwi
            subst hwi
            simp
            omega
        · have hk' : k ∈ s.available_vms := by
            split at hk
            · rcases mem_setAdd.mp hk with rfl | h'
              · exact absurd rfl hkv
              · exact h'
            · exact hk
          obtain ⟨wi, hwi, hwc⟩ := hA k hk'
          exact ⟨wi, by rw [dictGet_insert_ne _ _ hkv]; exact hwi, hwc⟩
    · rw [release_zero hget hpos]; exact ⟨hK, hF, hA⟩


theorem wf_health_aux {cfg : Config} (statusOf : Nat → Option String) (now : Nat) :
    ∀ (ids : List Nat) (s : PoolState), WfInv cfg s →
      WfInv cfg (check_vm_health_aux statusOf now ids s) := by
  intro ids
  induction ids with
  | nil => intro s h; exact h
  | cons vm_id rest ih =>
    intro s h
    obtain ⟨hK, hF, hA⟩ := h
    simp only [check_vm_health_aux]
    apply ih
    split
    · exact ⟨hK, hF, hA⟩
    · next vi hget =>
      have hid : vi.id = vm_id := hK _ (dictGet_mem hget)
      have hidm : vm_id ∈ dictKeys s.vm_pool := mem_keys_of_get hget
      split
      · refine wfInv_mk ?_ ?_ ?_ ?_
        · exact poolKey_insert hK (by simp [hid])
        · intro k hk
          show k < s.next_vm_id
          rcases mem_keys_insert.mp hk with rfl | hk'
          · exact hF.1 _ hidm
          · exact hF.1 k hk'
        · exact hF.2
        · intro k hk
          by_cases hkv : k = vm_id
          · subst hkv
            obtain ⟨wi, hwi, hwc⟩ := hA _ hk
            rw [hget] at hwi
            injection hwi with hwi
            subst hwi
            refine ⟨_, dictGet_insert_self _ _ _, ?_⟩
            simpa using hwc
          · obtain ⟨wi, hwi, hwc⟩ := hA k hk
            exact ⟨wi, by rw [dictGet_insert_ne _ _ hkv]; exact hwi, hwc⟩
      · refine wfInv_mk ?_ ?_ ?_ ?_
        · exact poolKey_insert hK (by simp [hid])
        · intro k hk
          show k < s.next_vm_id
          rcases mem_keys_insert.mp hk with rfl | hk'
          · exact hF.1 _ hidm
          · exact hF.1 k hk'
        · intro k hk
          exact hF.2 k (mem_setDiscard.mp hk).1
        · intro k hk
          obtain ⟨hk', hne⟩ := mem_setDiscard.mp hk
          obtain ⟨wi, hwi, hwc⟩ := hA k hk'
          exact ⟨wi, by rw [dictGet_insert_ne _ _ hne]; exact hwi, hwc⟩

theorem wf_health {cfg : Config} {statusOf : Nat → Option String} {now : Nat} {s : PoolState}
    (h : WfInv cfg s) : WfInv cfg (check_vm_health statusOf now s) :=
  wf_health_aux statusOf now _ s h

theorem wf_assign {cfg : Config} {o : CreateOutcome} {s : PoolState}
    (hcap : 1 ≤ cfg.users_per_vm) (h : WfInv cfg s) :
    WfInv cfg (assign_vm_to_user cfg o s).2 := by
  unfold assign_vm_to_user
  split
  · next best hscan =>
    rcases scanBest_origin cfg s.vm_pool _ _ _ hscan with h' | ⟨v, hv, hget, hrun, hlt⟩
    · cases h'
    · have hid : best.id = v := h.1 _ (dictGet_mem hget)
      exact wf_bump h (hid ▸ mem_keys_of_get hget)
  · next hscan =>
    split
    · next s1 hc => exact hc ▸ wf_create hcap h
    · next best s1 hc =>
      obtain ⟨hcnt, hid, hgets, hnext⟩ := create_some_facts hc
      have hwf1 : WfInv cfg s1 := by
        have hx : WfInv cfg (create_vm cfg o s).2 := wf_create hcap h
        rw [hc] at hx
        exact hx
      exact wf_bump hwf1 (mem_keys_of_get hgets)

theorem wf_applyOp {cfg : Config} {op : PoolOp} {s : PoolState}
    (hcap : 1 ≤ cfg.users_per_vm) (h : WfInv cfg s) : WfInv cfg (applyOp cfg op s) := by
  cases op with
  | assign o => exact wf_assign hcap h
  | release vm_id => exact wf_release h
  | health statusOf now => exact wf_health h
  | create o => exact wf_create hcap h

theorem wf_applyOps {cfg : Config} {ops : List PoolOp} {s : PoolState}
    (hcap : 1 ≤ cfg.users_per_vm) (h : WfInv cfg s) : WfInv cfg (applyOps cfg ops s) := by
  induction ops generalizing s with
  | nil => exact h
  | cons op rest ih => exact ih (wf_applyOp hcap h)

/-! Standalone preservation of the key invariant and of the store size. -/

theorem key_create {cfg : Config} {o : CreateOutcome} {s : PoolState}
    (h : KeyInv s) : KeyInv (create_vm cfg o s).2 := by
  rcases create_vm_cases cfg o s with ⟨_, heq⟩ | ⟨_, _, heq⟩ |
    ⟨ip, rest, _, _, ⟨_, heq⟩ | ⟨_, _, _, heq⟩⟩ <;> rw [heq]
  · exact h
  · exact h
  · exact poolKey_erase (poolKey_insert h (by simp [newRecord]))
  · exact poolKey_insert (poolKey_insert h (by simp [newRecord]))
      (by simp [newRunning, newRecord])

theorem key_bump {cfg : Config} {best : VMInfo} {s : PoolState}
    (h : KeyInv s) : KeyInv (assignBump cfg best s).2 := by
  unfold KeyInv
  rw [assignBump_vm_pool]
  exact poolKey_insert h rfl

theorem key_release {cfg : Config} {vm_id : Nat} {s : PoolState}
    (h : KeyInv s) : KeyInv (release_vm_from_user cfg vm_id s) := by
  rcases hget : dictGet s.vm_pool vm_id with _ | vi
  · rw [release_absent hget]; exact h
  · by_cases hpos : 0 < vi.user_count
    · have hid : vi.id = vm_id := h _ (dictGet_mem hget)
      unfold KeyInv
      rw [release_vm_pool hget hpos]
      exact poolKey_insert h (by simp [hid])
    · rw [release_zero hget hpos]; exact h

theorem key_health_aux {statusOf : Nat → Option String} {now : Nat} :
    ∀ (ids : List Nat) (s : PoolState), KeyInv s →
      KeyInv (check_vm_health_aux statusOf now ids s) := by
  intro ids
  induction ids with
  | nil => intro s h; exact h
  | cons vm_id rest ih =>
    intro s h
    simp only [check_vm_health_aux]
    apply ih
    split
    · exact h
    · next vi hget =>
      have hid : vi.id = vm_id := h _ (dictGet_mem hget)
      split
      · exact poolKey_insert h (by simp [hid])
      · exact poolKey_insert h (by simp [hid])

theorem key_assign {cfg : Config} {o : CreateOutcome} {s : PoolState}
    (h : KeyInv s) : KeyInv (assign_vm_to_user cfg o s).2 := by
  unfold assign_vm_to_user
  split
  · exact key_bump h
  · next hscan =>
    split
    · next s1 hc => exact hc ▸ key_create h
    · next best s1 hc =>
      have hk1 : KeyInv s1 := by
        have hx : KeyInv (create_vm cfg o s).2 := key_create h
        rw [hc] at hx
        exact hx
      exact key_bump hk1

theorem key_applyOp {cfg : Config} {op : PoolOp} {s : PoolState}
    (h : KeyInv s) : KeyInv (applyOp cfg op s) := by
  cases op with
  | assign o => exact key_assign h
  | release vm_id => exact key_release h
  | health statusOf now => exact key_health_aux _ s h
  | create o => exact key_create h

theorem len_create {cfg : Config} {o : CreateOutcome} {s : PoolState}
    (h : s.vm_pool.length ≤ cfg.max_vms) :
    ((create_vm cfg o s).2).vm_pool.length ≤ cfg.max_vms := by
  rcases create_vm_cases cfg o s with ⟨_, heq⟩ | ⟨_, _, heq⟩ |
    ⟨ip, rest, hlen, _, ⟨_, heq⟩ | ⟨_, _, _, heq⟩⟩ <;> rw [heq]
  · exact h
  · exact h
  · show (dictErase (dictInsert s.vm_pool s.next_vm_id (newRecord o s.next_vm_id ip))
      s.next_vm_id).length ≤ cfg.max_vms
    have h1 := length_dictErase_le
      (dictInsert s.vm_pool s.next_vm_id (newRecord o s.next_vm_id ip)) s.next_vm_id
    have h2 := length_dictInsert_le s.vm_pool s.next_vm_id (newRecord o s.next_vm_id ip)
    omega
  · show (dictInsert (dictInsert s.vm_pool s.next_vm_id (newRecord o s.next_vm_id ip))
      s.next_vm_id (newRunning o s.next_vm_id ip)).length ≤ cfg.max_vms
    have hmem : s.next_vm_id ∈
        dictKeys (dictInsert s.vm_pool s.next_vm_id (newRecord o s.next_vm_id ip)) :=
      mem_keys_of_get (dictGet_insert_self _ _ _)
    rw [length_dictInsert_of_mem _ hmem]
    have h2 := length_dictInsert_le s.vm_pool s.next_vm_id (newRecord o s.next_vm_id ip)
    omega

theorem len_release (cfg : Config) (vm_id : Nat) (s : PoolState) :
    (release_vm_from_user cfg vm_id s).vm_pool.length = s.vm_pool.length := by
  rcases hget : dictGet s.vm_pool vm_id with _ | vi
  · rw [release_absent hget]
  · by_cases hpos : 0 < vi.user_count
    · rw [release_vm_pool hget hpos]
      exact length_dictInsert_of_mem _ (mem_keys_of_get hget)
    · rw [release_zero hget hpos]

theorem len_health_aux {statusOf : Nat → Option String} {now : Nat} :
    ∀ (ids : List Nat) (s : PoolState),
      (check_vm_health_aux statusOf now ids s).vm_pool.length = s.vm_pool.length := by
  intro ids
  induction ids with
  | nil => intro s; rfl
  | cons vm_id rest ih =>
    intro s
    simp only [check_vm_health_aux]
    rw [ih]
    split
    · rfl
    · next vi hget =>
      split
      · exact length_dictInsert_of_mem _ (mem_keys_of_get hget)
      · exact length_dictInsert_of_mem _ (mem_keys_of_get hget)

theorem len_bump {cfg : Config} {best : VMInfo} {s : PoolState}
    (hmem : best.id ∈ dictKeys s.vm_pool) :
    ((assignBump cfg best s).2).vm_pool.length = s.vm_pool.length := by
  rw [assignBump_vm_pool]
  exact length_dictInsert_of_mem _ hmem

theorem len_assign {cfg : Config} {o : CreateOutcome} {s : PoolState}
    (hK : KeyInv s) (h : s.vm_pool.length ≤ cfg.max_vms) :
    ((assign_vm_to_user cfg o s).2).vm_pool.length ≤ cfg.max_vms := by
  unfold assign_vm_to_user
  split
  · next best hscan =>
    rcases scanBest_origin cfg s.vm_pool _ _ _ hscan with h' | ⟨v, hv, hget, hrun, hlt⟩
    · cases h'
    · have hid : best.id = v := hK _ (dictGet_mem hget)
      rw [len_bump (hid ▸ mem_keys_of_get hget)]
      exact h
  · next hscan =>
    split
    · next s1 hc =>
      have hx : ((create_vm cfg o s).2).vm_pool.length ≤ cfg.max_vms := len_create h
      rw [hc] at hx
      exact hx
    · next best s1 hc =>
      obtain ⟨hcnt, hid, hgets, hnext⟩ := create_some_facts hc
      have h1 : s1.vm_pool.length ≤ cfg.max_vms := by
        have hx : ((create_vm cfg o s).2).vm_pool.length ≤ cfg.max_vms := len_create h
        rw [hc] at hx
        exact hx
      rw [len_bump (mem_keys_of_get hgets)]
      exact h1

theorem len_applyOp {cfg : Config} {op : PoolOp} {s : PoolState}
    (hK : KeyInv s) (h : s.vm_pool.length ≤ cfg.max_vms) :
    (applyOp cfg op s).vm_pool.length ≤ cfg.max_vms := by
  cases op with
  | assign o => exact len_assign hK h
  | release vm_id => rw [show (applyOp cfg (PoolOp.release vm_id) s) =
      release_vm_from_user cfg vm_id s from rfl, len_release]; exact h
  | health statusOf now => rw [show (applyOp cfg (PoolOp.health statusOf now) s) =
      check_vm_health statusOf now s from rfl]; unfold check_vm_health; rw [len_health_aux]; exact h
  | create o => exact len_create h

theorem keylen_applyOps {cfg : Config} {ops : List PoolOp} {s : PoolState}
    (hK : KeyInv s) (h : s.vm_pool.length ≤ cfg.max_vms) :
    KeyInv (applyOps cfg ops s) ∧ (applyOps cfg ops s).vm_pool.length ≤ cfg.max_vms := by
  induction ops generalizing s with
  | nil => exact ⟨hK, h⟩
  | cons op rest ih => exact ih (key_applyOp hK) (len_applyOp hK h)


/-! Frame lemmas for the health pass. -/

theorem health_aux_avail_subset {statusOf : Nat → Option String} {now : Nat} :
    ∀ (ids : List Nat) (s : PoolState) (x : Nat),
      x ∈ (check_vm_health_aux statusOf now ids s).available_vms → x ∈ s.available_vms := by
  intro ids
  induction ids with
  | nil => intro s x h; exact h
  | cons vm_id rest ih =>
    intro s x h
    simp only [check_vm_health_aux] at h
    split at h
    · exact ih _ _ h
    · split at h
      · have hx := ih _ _ h
        exact hx
      · have hx := ih _ _ h
        exact (mem_setDiscard.mp hx).1

theorem health_aux_get_frame {statusOf : Nat → Option String} {now : Nat} {v : Nat} :
    ∀ (ids : List Nat) (s : PoolState), v ∉ ids →
      dictGet (check_vm_health_aux statusOf now ids s).vm_pool v = dictGet s.vm_pool v := by
  intro ids
  induction ids with
  | nil => intro s _; rfl
  | cons vm_id rest ih =>
    intro s hv
    have hvr : v ∉ rest := fun h => hv (List.mem_cons_of_mem _ h)
    have hne : v ≠ vm_id := fun h => hv (h ▸ List.mem_cons_self _ _)
    simp only [check_vm_health_aux]
    rw [ih _ hvr]
    split
    · rfl
    · split
      · exact dictGet_insert_ne _ _ hne
      · exact dictGet_insert_ne _ _ hne

theorem health_aux_avail_frame {statusOf : Nat → Option String} {now : Nat} {v : Nat}
    (ids : List Nat) (s : PoolState) (hv : v ∉ s.available_vms) :
    v ∉ (check_vm_health_aux statusOf now ids s).available_vms :=
  fun h => hv (health_aux_avail_subset ids s v h)

theorem health_aux_count {statusOf : Nat → Option String} {now : Nat} :
    ∀ (ids : List Nat) (s : PoolState) (w : Nat) (wi : VMInfo),
      dictGet s.vm_pool w = some wi →
      ∃ wi', dictGet (check_vm_health_aux statusOf now ids s).vm_pool w = some wi' ∧
        wi'.user_count = wi.user_count := by
  intro ids
  induction ids with
  | nil => intro s w wi h; exact ⟨wi, h, rfl⟩
  | cons vm_id rest ih =>
    intro s w wi h
    simp only [check_vm_health_aux]
    split
    · exact ih _ _ _ h
    · next vi hget =>
      split
      · by_cases hw : w = vm_id
        · subst hw
          rw [h] at hget
          injection hget with hget2
          subst hget2
          exact ih _ _ ({ wi with status := VMStatus.running, last_health_check := some now })
            (dictGet_insert_self _ _ _)
        · exact ih _ _ _ (by
            show dictGet (dictInsert s.vm_pool vm_id _) w = some wi
            rw [dictGet_insert_ne _ _ hw]
            exact h)
      · by_cases hw : w = vm_id
        · subst hw
          rw [h] at hget
          injection hget with hget2
          subst hget2
          exact ih _ _ ({ wi with status := VMStatus.stopped })
            (dictGet_insert_self _ _ _)
        · exact ih _ _ _ (by
            show dictGet (dictInsert s.vm_pool vm_id _) w = some wi
            rw [dictGet_insert_ne _ _ hw]
            exact h)

/-- What one health pass does to a record whose id occurs exactly once in
the processed snapshot: a non-running report stops it and evicts it from
the available set, a running report marks it running and stamps the
check time. -/
theorem health_aux_target {statusOf : Nat → Option String} {now : Nat} {v : Nat} {vi : VMInfo} :
    ∀ (ids : List Nat) (s : PoolState), ids.Nodup → v ∈ ids →
      dictGet s.vm_pool v = some vi →
      ((statusOf v = some runningStr →
        dictGet (check_vm_health_aux statusOf now ids s).vm_pool v =
          some ({ vi with status := VMStatus.running, last_health_check := some now })) ∧
       (¬statusOf v = some runningStr →
        dictGet (check_vm_health_aux statusOf now ids s).vm_pool v =
          some ({ vi with status := VMStatus.stopped }) ∧
          v ∉ (check_vm_health_aux statusOf now ids s).available_vms)) := by
  intro ids
  induction ids with
  | nil => intro s _ hv _; cases hv
  | cons vm_id rest ih =>
    intro s hnd hv hget
    obtain ⟨hnotin, hndr⟩ := List.nodup_cons.mp hnd
    rcases List.mem_cons.mp hv with rfl | hvr
    · simp only [check_vm_health_aux, hget]
      constructor
      · intro hrun
        rw [if_pos hrun]
        rw [health_aux_get_frame rest _ hnotin]
        exact dictGet_insert_self _ _ _
      · intro hrun
        rw [if_neg hrun]
        refine ⟨?_, ?_⟩
        · rw [health_aux_get_frame rest _ hnotin]
          exact dictGet_insert_self _ _ _
        · apply health_aux_avail_frame
          intro hx
          exact (mem_setDiscard.mp hx).2 rfl
    · have hne : v ≠ vm_id := fun h => hnotin (h ▸ hvr)
      simp only [check_vm_health_aux]
      split
      · exact ih _ hndr hvr hget
      · next wi hgetw =>
        split
        · refine ih _ hndr hvr ?_
          show dictGet (dictInsert s.vm_pool vm_id _) v = some vi
          rw [dictGet_insert_ne _ _ hne]
          exact hget
        · refine ih _ hndr hvr ?_
          show dictGet (dictInsert s.vm_pool vm_id _) v = some vi
          rw [dictGet_insert_ne _ _ hne]
          exact hget

/-! Lemmas about the IP allocator. -/

theorem ipWalk_length (lo hi : Nat) : ∀ (n cur : Nat), (ipWalk lo hi cur n).length ≤ n := by
  intro n
  induction n with
  | zero => intro cur; simp [ipWalk]
  | succ m ih =>
    intro cur
    unfold ipWalk
    split
    · simpa using ih (cur + 1)
    · simp

theorem ipWalk_mem (lo hi : Nat) : ∀ (n cur : Nat) (a : Nat), a ∈ ipWalk lo hi cur n →
    cur ≤ a ∧ lo ≤ a ∧ a ≤ hi := by
  intro n
  induction n with
  | zero => intro cur a h; simp [ipWalk] at h
  | succ m ih =>
    intro cur a h
    unfold ipWalk at h
    split at h
    · next hin =>
      rcases List.mem_cons.mp h with rfl | h'
      · exact ⟨le_refl _, hin.1, hin.2⟩
      · have := ih (cur + 1) a h'
        omega
    · simp at h

theorem ipWalk_pairwise (lo hi : Nat) : ∀ (n cur : Nat),
    List.Pairwise (fun a b => a < b) (ipWalk lo hi cur n) := by
  intro n
  induction n with
  | zero => intro cur; simp [ipWalk]
  | succ m ih =>
    intro cur
    unfold ipWalk
    split
    · refine List.pairwise_cons.mpr ⟨?_, ih (cur + 1)⟩
      intro a ha
      have := ipWalk_mem lo hi m (cur + 1) a ha
      omega
    · simp


/-! Claim theorems. -/

/-- C1: for every configuration with `users_per_vm ≥ 1` and every finite
sequence of `assign_vm_to_user` / `release_vm_from_user` calls (with
arbitrary ids, including absent ones), the `user_count` of every record in
the store stays within `[0, users_per_vm]`; in particular, two consecutive
releases after the single assignment that put an instance at occupancy 1
leave its `user_count` at 0, not negative. -/
theorem c1_occupancy_bounds (cfg : Config) (s : PoolState) (ops : List PoolOp)
    (hcap : 1 ≤ cfg.users_per_vm) (hocc : OccInv cfg s)
    (hops : ∀ op ∈ ops, op.isUserOp) :
    OccInv cfg (applyOps cfg ops s) ∧
    ∀ v vi, dictGet s.vm_pool v = some vi → vi.user_count = 1 →
      (dictGet (release_vm_from_user cfg v (release_vm_from_user cfg v s)).vm_pool v).map
        VMInfo.user_count = some 0 := by
  refine ⟨occ_applyOps hcap hocc, ?_⟩
  intro v vi hget hone
  have hpos : 0 < vi.user_count := by omega
  have hget1 : dictGet (release_vm_from_user cfg v s).vm_pool v =
      some ({ vi with user_count := vi.user_count - 1 }) := by
    rw [release_vm_pool hget hpos]
    exact dictGet_insert_self _ _ _
  have hz : ¬0 < ({ vi with user_count := vi.user_count - 1 } : VMInfo).user_count := by
    simp
    omega
  rw [release_zero hget1 hz, hget1]
  simp
  omega

/-- Witness for C1 at a concrete configuration, state and call sequence. -/
theorem c1_witness :
    OccInv cfg2c (applyOps cfg2c [PoolOp.assign okOut, PoolOp.release 100] s20) ∧
    ∀ v vi, dictGet s20.vm_pool v = some vi → vi.user_count = 1 →
      (dictGet (release_vm_from_user cfg2c v (release_vm_from_user cfg2c v s20)).vm_pool v).map
        VMInfo.user_count = some 0 :=
  c1_occupancy_bounds cfg2c s20 [PoolOp.assign okOut, PoolOp.release 100]
    (by decide)
    (by intro p hp; exact absurd hp (List.not_mem_nil p))
    (by
      intro op hop
      rcases List.mem_cons.mp hop with rfl | hop
      · exact trivial
      · rcases List.mem_cons.mp hop with rfl | hop
        · exact trivial
        · exact absurd hop (List.not_mem_nil op))

/-- C4: once `create_vm` has inserted its record (capacity and an address
were available) and any later provisioning step fails — the remote clone,
the wait-for-ready, or the display-connection creation — the run removes
the record from the store, releases the reserved address back to the IP
free list, and returns NONE instead of propagating the error. -/
theorem c4_create_failure_cleanup (cfg : Config) (o : CreateOutcome) (s : PoolState)
    (ip : Nat) (rest : List Nat)
    (hlen : s.vm_pool.length < cfg.max_vms) (hip : s.ip_pool = ip :: rest)
    (hfresh : dictGet s.vm_pool s.next_vm_id = none) (hdup : ip ∉ rest)
    (hfail : ¬(o.cloneOk = true ∧ o.readyOk = true ∧ truthy o.connId = true)) :
    create_vm cfg o s =
      (none, { s with next_vm_id := s.next_vm_id + 1, ip_pool := rest ++ [ip] }) := by
  rcases create_vm_cases cfg o s with ⟨hl, heq⟩ | ⟨_, hip2, heq⟩ |
    ⟨ip2, rest2, _, hip2, ⟨hf, heq⟩ | ⟨hc, hr, ht, heq⟩⟩
  · exact absurd hlen (by omega)
  · rw [hip] at hip2; cases hip2
  · rw [hip] at hip2
    injection hip2 with e1 e2
    subst e1
    subst e2
    rw [heq, dictErase_insert_fresh _ hfresh]
    have hrel : release_ip rest ip = rest ++ [ip] := by simp [release_ip, hdup]
    rw [hrel]
  · exact absurd ⟨hc, hr, ht⟩ hfail

/-- Witness for C4: a clone failure on a concrete state removes the record
and re-queues the drawn address at the back of the free list. -/
theorem c4_witness :
    create_vm cfg2c failOut s20 =
      (none, { s20 with next_vm_id := s20.next_vm_id + 1, ip_pool := [11] ++ [10] }) :=
  c4_create_failure_cleanup cfg2c failOut s20 10 [11] (by decide) rfl rfl (by decide) (by decide)

/-- C5 counterexample: with the store below `max_vms` but the IP free list
exhausted, `create_vm` returns NONE yet has already incremented the id
counter (100 to 101), so the claimed "no side effects" is violated on the
id counter. -/
theorem c5_counterexample :
    (create_vm cfg3c okOut s5c).1 = none ∧
    s5c.vm_pool.length < cfg3c.max_vms ∧ s5c.ip_pool = [] ∧
    (create_vm cfg3c okOut s5c).2.next_vm_id = 101 ∧ s5c.next_vm_id = 100 :=
  ⟨rfl, by decide, rfl, rfl, rfl⟩

/-- C5 amended: the pool-full fast path returns NONE with no side effects
at all; the IP-exhausted fast path leaves the store, the available set and
the free list unchanged but has already consumed an id from the counter. -/
theorem c5_fail_fast_amended (cfg : Config) (o : CreateOutcome) (s : PoolState) :
    (cfg.max_vms ≤ s.vm_pool.length → create_vm cfg o s = (none, s)) ∧
    (s.vm_pool.length < cfg.max_vms → s.ip_pool = [] →
      create_vm cfg o s = (none, { s with next_vm_id := s.next_vm_id + 1 })) := by
  constructor
  · intro h
    simp [create_vm, h]
  · intro h hip
    rcases create_vm_cases cfg o s with ⟨hl, heq⟩ | ⟨_, _, heq⟩ | ⟨ip2, rest2, _, hip2, _⟩
    · exact absurd hl (by omega)
    · exact heq
    · rw [hip] at hip2; cases hip2

/-- Witness for C5 on both fast paths. -/
theorem c5_witness :
    create_vm cfg3c okOut e3c = (none, e3c) ∧
    create_vm cfg3c okOut s5c = (none, { s5c with next_vm_id := s5c.next_vm_id + 1 }) :=
  ⟨(c5_fail_fast_amended cfg3c okOut e3c).1 (by decide),
   (c5_fail_fast_amended cfg3c okOut s5c).2 (by decide) rfl⟩

/-- C9 counterexample: after address 10 is released behind 11 and 12,
`get_next_ip` hands out 11 although the strictly lower address 10 is free,
so "removes and returns the lowest free address" fails for this pool
state. -/
theorem c9_counterexample :
    get_next_ip s9c = (some 11, { s9c with ip_pool := [12, 10] }) ∧
    10 ∈ s9c.ip_pool ∧ 10 < 11 :=
  ⟨rfl, by decide, by decide⟩

/-- C9 amended: the startup pool walks forward from the base address while
inside the subnet, yielding at most `max_vms` strictly increasing
addresses; `get_next_ip` removes and returns the first (not in general the
lowest) free-list entry and returns NONE exactly on the empty list. -/
theorem c9_ip_allocator_amended (lo hi base n : Nat) (s : PoolState) :
    (ipWalk lo hi base n).length ≤ n ∧
    List.Pairwise (fun a b => a < b) (ipWalk lo hi base n) ∧
    (∀ a ∈ ipWalk lo hi base n, base ≤ a ∧ lo ≤ a ∧ a ≤ hi) ∧
    (s.ip_pool = [] → get_next_ip s = (none, s)) ∧
    (∀ a rest, s.ip_pool = a :: rest → get_next_ip s = (some a, { s with ip_pool := rest })) := by
  refine ⟨ipWalk_length lo hi n base, ipWalk_pairwise lo hi n base, ?_, ?_, ?_⟩
  · intro a ha
    exact ipWalk_mem lo hi n base a ha
  · intro h
    simp [get_next_ip, h]
  · intro a rest h
    simp [get_next_ip, h]

/-- Witness for C9 on the scenario subnet walk and on two concrete pops. -/
theorem c9_witness :
    (10 ≤ 12 ∧ 0 ≤ 12 ∧ 12 ≤ 255) ∧ get_next_ip s5c = (none, s5c) ∧
    get_next_ip s20 = (some 10, { s20 with ip_pool := [11] }) :=
  ⟨(c9_ip_allocator_amended 0 255 10 3 s5c).2.2.1 12 (by decide),
   (c9_ip_allocator_amended 0 255 10 3 s5c).2.2.2.1 rfl,
   (c9_ip_allocator_amended 0 255 10 3 s20).2.2.2.2 10 [11] rfl⟩

/-- C10: `release_ip` is idempotent — releasing an address already on the
free list leaves the list unchanged, so a double release never duplicates
an entry, and a duplicate-free free list stays duplicate-free under both
`release_ip` and `get_next_ip`. -/
theorem c10_release_ip_idempotent (pool : List Nat) (ip : Nat) (s : PoolState) :
    (ip ∈ pool → release_ip pool ip = pool) ∧
    release_ip (release_ip pool ip) ip = release_ip pool ip ∧
    (pool.Nodup → (release_ip pool ip).Nodup) ∧
    (s.ip_pool.Nodup → ((get_next_ip s).2).ip_pool.Nodup) := by
  refine ⟨?_, ?_, ?_, ?_⟩
  · intro h
    simp [release_ip, h]
  · by_cases h : ip ∈ pool
    · simp [release_ip, h]
    · simp [release_ip, h]
  · intro h
    by_cases hm : ip ∈ pool
    · simpa [release_ip, hm] using h
    · simp only [release_ip, if_neg hm]
      rw [List.nodup_append]
      refine ⟨h, List.nodup_singleton _, ?_⟩
      intro a ha hb
      rw [List.mem_singleton] at hb
      subst hb
      exact hm ha
  · intro h
    rcases hip : s.ip_pool with _ | ⟨a, rest⟩
    · simpa [get_next_ip, hip] using h
    · rw [hip] at h
      simp [get_next_ip, hip]
      exact (List.nodup_cons.mp h).2

/-- Witness for C10 at a concrete free list and pool state. -/
theorem c10_witness :
    release_ip [5] 5 = [5] ∧ release_ip (release_ip [5] 5) 5 = release_ip [5] 5 ∧
    (release_ip [5] 5).Nodup ∧ ((get_next_ip s20).2).ip_pool.Nodup := by
  have h := c10_release_ip_idempotent [5] 5 s20
  exact ⟨h.1 (by decide), h.2.1, h.2.2.1 (by decide), h.2.2.2 (by decide)⟩


/-- C2 counterexample: provision a VM, fill it (capacity 1), observe it
non-running in a health pass, then release the user: the release re-adds
id 100 to the available set although the record's lifecycle state is
`STOPPED`, because `release_vm_from_user` checks only the occupancy. -/
theorem c2_counterexample :
    t2c.available_vms = [100] ∧
    (dictGet t2c.vm_pool 100).map VMInfo.status = some VMStatus.stopped :=
  ⟨rfl, rfl⟩

/-- C2 amended: after any sequence of assign/release/health/create
operations from a well-formed state, every id in the available set still
denotes a stored record with occupancy strictly below capacity — but its
lifecycle state is not constrained; and `release_vm_from_user` re-adds an
id exactly when the decremented occupancy is below capacity (or it was
already available), with no lifecycle-state check. -/
theorem c2_available_set_amended (cfg : Config) (s : PoolState) (ops : List PoolOp)
    (hcap : 1 ≤ cfg.users_per_vm) (hwf : WfInv cfg s) :
    AvailInv cfg (applyOps cfg ops s) ∧
    ∀ v vi, dictGet s.vm_pool v = some vi → 0 < vi.user_count →
      (v ∈ (release_vm_from_user cfg v s).available_vms ↔
        (vi.user_count - 1 < cfg.users_per_vm ∨ v ∈ s.available_vms)) := by
  refine ⟨(wf_applyOps hcap hwf).2.2, ?_⟩
  intro v vi hget hpos
  rw [release_avail hget hpos]
  split
  · next hlt =>
    constructor
    · intro _
      exact Or.inl hlt
    · intro _
      exact mem_setAdd.mpr (Or.inl rfl)
  · next hlt =>
    constructor
    · intro h
      exact Or.inr h
    · rintro (h | h)
      · exact absurd h hlt
      · exact h

/-- Witness for C2 (amended) at a concrete configuration and operation list. -/
theorem c2_witness :
    AvailInv cfg2c (applyOps cfg2c [PoolOp.assign okOut] s20) ∧
    ∀ v vi, dictGet s20.vm_pool v = some vi → 0 < vi.user_count →
      (v ∈ (release_vm_from_user cfg2c v s20).available_vms ↔
        (vi.user_count - 1 < cfg2c.users_per_vm ∨ v ∈ s20.available_vms)) :=
  c2_available_set_amended cfg2c s20 [PoolOp.assign okOut] (by decide)
    ⟨fun p hp => absurd hp (List.not_mem_nil p),
     ⟨fun k hk => absurd hk (List.not_mem_nil k),
      fun k hk => absurd hk (List.not_mem_nil k)⟩,
     fun k hk => absurd hk (List.not_mem_nil k)⟩

/-- C3 counterexample: startup registration of two pre-existing running
remote instances with `max_vms = 1` leaves two records in the store —
`_register_existing_vm` performs no capacity check, so the cap can be
exceeded during `ensure_base_load`. -/
theorem c3_counterexample :
    e3c.vm_pool.length = 2 ∧ cfg3c.max_vms = 1 ∧
    ¬e3c.vm_pool.length ≤ cfg3c.max_vms :=
  ⟨rfl, rfl, by decide⟩

/-- C3 amended: along any sequence of assign/release/health-pass/create
operations from a state within the cap (registration of pre-existing
instances excluded, since it checks no cap), the store size stays at most
`max_vms`. -/
theorem c3_store_cap_amended (cfg : Config) (s : PoolState) (ops : List PoolOp)
    (hkey : KeyInv s) (hlen : s.vm_pool.length ≤ cfg.max_vms) :
    (applyOps cfg ops s).vm_pool.length ≤ cfg.max_vms :=
  (keylen_applyOps hkey hlen).2

/-- Witness for C3 (amended) from the empty state. -/
theorem c3_witness :
    (applyOps cfg2c [PoolOp.assign okOut, PoolOp.create okOut] s20).vm_pool.length ≤
      cfg2c.max_vms :=
  c3_store_cap_amended cfg2c s20 [PoolOp.assign okOut, PoolOp.create okOut]
    (fun p hp => absurd hp (List.not_mem_nil p)) (by decide)

/-- C6 counterexample: two eligible records with equal occupancy (ids 1
and 2) and a set iteration order that visits id 2 first: the scan selects
id 2, not the lowest id 1, so ties are broken by iteration order of the
Python set, not by lowest id. -/
theorem c6_counterexample :
    (scanBest cfg7 s6c.vm_pool s6c.available_vms none).map VMInfo.id = some 2 ∧
    dictGet s6c.vm_pool 1 = some vmA ∧ dictGet s6c.vm_pool 2 = some vmB ∧
    1 ∈ s6c.available_vms ∧ vmA.status = VMStatus.running ∧
    vmA.user_count = vmB.user_count ∧ vmA.user_count < cfg7.users_per_vm ∧ (1 : Nat) < 2 :=
  ⟨rfl, rfl, rfl, by decide, rfl, rfl, by decide, by decide⟩

/-- C6 amended: whenever the scan returns a record, that record is
available, running and strictly below capacity, and its occupancy is
minimal among all eligible available records (ties are resolved by the
set's iteration order, not by lowest id); the assignment then increments
its occupancy, writes it back, and removes the id from the available set
exactly when the new count reaches `users_per_vm`. -/
theorem c6_assignment_selection_amended (cfg : Config) (o : CreateOutcome) (s : PoolState)
    (vi : VMInfo) (hkey : KeyInv s)
    (hscan : scanBest cfg s.vm_pool s.available_vms none = some vi) :
    vi.id ∈ s.available_vms ∧
    dictGet s.vm_pool vi.id = some vi ∧
    vi.status = VMStatus.running ∧ vi.user_count < cfg.users_per_vm ∧
    (∀ v ∈ s.available_vms, ∀ vj, dictGet s.vm_pool v = some vj →
      vj.status = VMStatus.running → vj.user_count < cfg.users_per_vm →
      vi.user_count ≤ vj.user_count) ∧
    (assign_vm_to_user cfg o s).1 = some ({ vi with user_count := vi.user_count + 1 }) ∧
    dictGet ((assign_vm_to_user cfg o s).2).vm_pool vi.id =
      some ({ vi with user_count := vi.user_count + 1 }) ∧
    (vi.id ∉ ((assign_vm_to_user cfg o s).2).available_vms ↔
      vi.user_count + 1 = cfg.users_per_vm) := by
  rcases scanBest_origin cfg s.vm_pool _ _ _ hscan with h' | ⟨v, hv, hget, hrun, hlt⟩
  · cases h'
  · have hid : vi.id = v := hkey _ (dictGet_mem hget)
    subst hid
    have hassign : assign_vm_to_user cfg o s = assignBump cfg vi s := by
      unfold assign_vm_to_user
      rw [hscan]
    obtain ⟨hmin1, hmin2⟩ := scanBest_min cfg s.vm_pool _ _ _ hscan
    refine ⟨hv, hget, hrun, hlt, hmin2, ?_, ?_, ?_⟩
    · rw [hassign, assignBump_fst]
    · rw [hassign, assignBump_vm_pool]
      exact dictGet_insert_self _ _ _
    · rw [hassign, assignBump_avail]
      constructor
      · intro hnot
        by_cases hc : cfg.users_per_vm ≤ vi.user_count + 1
        · omega
        · rw [if_neg hc] at hnot
          exact absurd hv hnot
      · intro heq
        rw [if_pos (by omega)]
        intro hx
        exact (mem_setDiscard.mp hx).2 rfl

/-- Witness for C6 (amended) at the two-record state. -/
theorem c6_witness :
    vmB.id ∈ s6c.available_vms ∧
    dictGet s6c.vm_pool vmB.id = some vmB ∧
    vmB.status = VMStatus.running ∧ vmB.user_count < cfg7.users_per_vm ∧
    (∀ v ∈ s6c.available_vms, ∀ vj, dictGet s6c.vm_pool v = some vj →
      vj.status = VMStatus.running → vj.user_count < cfg7.users_per_vm →
      vmB.user_count ≤ vj.user_count) ∧
    (assign_vm_to_user cfg7 okOut s6c).1 = some ({ vmB with user_count := vmB.user_count + 1 }) ∧
    dictGet ((assign_vm_to_user cfg7 okOut s6c).2).vm_pool vmB.id =
      some ({ vmB with user_count := vmB.user_count + 1 }) ∧
    (vmB.id ∉ ((assign_vm_to_user cfg7 okOut s6c).2).available_vms ↔
      vmB.user_count + 1 = cfg7.users_per_vm) :=
  c6_assignment_selection_amended cfg7 okOut s6c vmB
    (by unfold KeyInv PoolKey; decide) rfl

/-- C7 counterexample: in the spec's sizing scenario the sixth sequential
assignment still succeeds (it fills the third instance to capacity), so
"the 6th call must return NONE" is false. -/
theorem c7_counterexample :
    s75.vm_pool.length = 3 ∧ (r76.1).isSome = true :=
  ⟨rfl, rfl⟩

/-- C7 amended: with subnet 10.0.0.0/24, base 10.0.0.10, `max_vms=3`,
`users_per_vm=2`, `base_load=1` and all collaborator calls succeeding,
`ensure_base_load` leaves one running record at 10.0.0.10; five sequential
assignments provision exactly two additional instances (three total); the
sixth assignment succeeds, consuming the last capacity unit (3 × 2 = 6),
and the seventh returns NONE. -/
theorem c7_scenario_amended :
    s7base.vm_pool.length = 1 ∧
    (dictGet s7base.vm_pool 100).map VMInfo.ip = some 167772170 ∧
    (dictGet s7base.vm_pool 100).map VMInfo.status = some VMStatus.running ∧
    s75.vm_pool.length = 3 ∧
    (r76.1).map VMInfo.user_count = some 2 ∧
    r77.1 = none :=
  ⟨rfl, rfl, rfl, rfl, rfl, rfl⟩

/-- C8 counterexample: in a pass where instance 2 reports non-running (the
claim's premise), the other record (id 1, previously `STOPPED`) is also
mutated — its status flips to `RUNNING` — so "every field of every other
record unchanged" is false. -/
theorem c8_counterexample :
    (dictGet s8c.vm_pool 1).map VMInfo.status = some VMStatus.stopped ∧
    (dictGet h8c.vm_pool 1).map VMInfo.status = some VMStatus.running ∧
    (dictGet h8c.vm_pool 2).map VMInfo.status = some VMStatus.stopped ∧
    f8c 2 ≠ some runningStr :=
  ⟨rfl, rfl, rfl, by decide⟩

/-- C8 amended: a health pass stops every record whose remote state is not
running and evicts it from the available set while keeping it in the store
with only its status changed; records reporting running are set to
`RUNNING` with a fresh `last_health_check`; no record's `user_count` is
altered by the pass. -/
theorem c8_health_pass_amended (statusOf : Nat → Option String) (now : Nat) (s : PoolState)
    (v : Nat) (vi : VMInfo) (hnd : (dictKeys s.vm_pool).Nodup)
    (hget : dictGet s.vm_pool v = some vi) :
    (¬statusOf v = some runningStr →
      dictGet (check_vm_health statusOf now s).vm_pool v =
        some ({ vi with status := VMStatus.stopped }) ∧
      v ∉ (check_vm_health statusOf now s).available_vms) ∧
    (statusOf v = some runningStr →
      dictGet (check_vm_health statusOf now s).vm_pool v =
        some ({ vi with status := VMStatus.running, last_health_check := some now })) ∧
    (∀ w wi, dictGet s.vm_pool w = some wi →
      (dictGet (check_vm_health statusOf now s).vm_pool w).map VMInfo.user_count =
        some wi.user_count) := by
  have hv : v ∈ dictKeys s.vm_pool := mem_keys_of_get hget
  have htgt := @health_aux_target statusOf now v vi (dictKeys s.vm_pool) s hnd hv hget
  refine ⟨htgt.2, htgt.1, ?_⟩
  intro w wi hw
  obtain ⟨wi', hget', hc⟩ := health_aux_count (dictKeys s.vm_pool) s w wi hw
  rw [show check_vm_health statusOf now s =
    check_vm_health_aux statusOf now (dictKeys s.vm_pool) s from rfl, hget']
  simp [hc]

/-- Witness for C8 (amended) at the two-record state and report map. -/
theorem c8_witness :
    (¬f8c 2 = some runningStr →
      dictGet (check_vm_health f8c 9 s8c).vm_pool 2 =
        some ({ vmD with status := VMStatus.stopped }) ∧
      2 ∉ (check_vm_health f8c 9 s8c).available_vms) ∧
    (f8c 2 = some runningStr →
      dictGet (check_vm_health f8c 9 s8c).vm_pool 2 =
        some ({ vmD with status := VMStatus.running, last_health_check := some 9 })) ∧
    (∀ w wi, dictGet s8c.vm_pool w = some wi →
      (dictGet (check_vm_health f8c 9 s8c).vm_pool w).map VMInfo.user_count =
        some wi.user_count) :=
  c8_health_pass_amended f8c 9 s8c 2 vmD (by decide) rfl

end VMManager
